import Mathlib

/-!
Verification of the minesweeper agent (minesweeper_agent.py): a shallow
embedding of the board (`Minesweeper`), the constraint record (`Sentence`)
and the knowledge base (`MinesweeperAI`), together with proofs about the
deduction fixpoint in `add_knowledge`.

Modelling notes, checked against the Python source:
* Python `int` is modelled as `Int` (counts can go negative: no assertion
  guards `Sentence.mark_mine`).
* `random.randrange` is modelled as an oracle stream `Nat → Nat × Nat`;
  the value `randrange(h)` returns is some number in `[0, h)`, modelled as
  `x % h`.
* The `while changed` fixpoint loop in `add_knowledge` is modelled with
  explicit fuel (`loopFuel`), returning `none` when the fuel runs out.
* `Sentence` defines no `__eq__`, so Python `==`/`in` on sentences fall
  back to object identity.  The freshly allocated `inferred` object is
  therefore never `in self.knowledge` nor `in new_inferred`: the two
  membership tests at the staging step never remove anything, and the model
  omits them.  The guard `s1 == s2` holds only when both names denote the
  same list slot; for two distinct slots holding value-equal sentences the
  source computes `diff_cells = ∅` and discards the result at the
  `is_empty` test, so guarding on value equality (`s1 = s2`) stages exactly
  the same list.
* The two marking loops (`for s_pos in safes`, `for m_pos in mines`) mark
  each collected cell once, in some set order.  Each `mark_safe p` adds `p`
  to `safes` and erases `p` from every sentence; each `mark_mine p` also
  decrements the count of every sentence containing `p` at that moment.
  The collected cells are pairwise distinct, so the aggregate effect is
  order-independent: `markSafeSet`/`markMineSet` apply it in one step,
  erasing the whole marked set and decrementing by the number of erased
  cells, which is what the per-element loop computes.
-/

abbrev Pos := Nat × Nat

/-- The constraint record of the source: a set of cells and the number of
mines among them (`Sentence.__init__`). -/
structure Sentence where
  cells : Finset Pos
  count : Int

instance : DecidableEq Sentence := fun a b =>
  decidable_of_iff (a.cells = b.cells ∧ a.count = b.count)
    (by cases a; cases b; simp)

/-- `Sentence.known_mines`. -/
def Sentence.known_mines (s : Sentence) : Finset Pos :=
  if s.cells.card = 0 then ∅
  else if s.count = (s.cells.card : Int) then s.cells else ∅

/-- `Sentence.known_safes`. -/
def Sentence.known_safes (s : Sentence) : Finset Pos :=
  if s.count = 0 then s.cells else ∅

/-- `Sentence.mark_mine`: remove the cell and decrement the count; no
validation of the result. -/
def Sentence.mark_mine (s : Sentence) (pos : Pos) : Sentence :=
  if pos ∈ s.cells then ⟨s.cells.erase pos, s.count - 1⟩ else s

/-- `Sentence.mark_safe`: remove the cell, count unchanged. -/
def Sentence.mark_safe (s : Sentence) (pos : Pos) : Sentence :=
  if pos ∈ s.cells then ⟨s.cells.erase pos, s.count⟩ else s

/-- `Sentence.is_empty`. -/
def Sentence.is_empty (s : Sentence) : Bool := s.cells.card = 0

/-- The board state of class `Minesweeper` (`board[r][c]` as a function). -/
structure Minesweeper where
  height : Nat
  width : Nat
  mines_count : Nat
  board : Pos → Bool
  mines : Finset Pos
  revealed : Finset Pos
  flags : Finset Pos

/-- The eight (dr, dc) offsets the nested loops of `Minesweeper.neighbors`
enumerate, (0, 0) skipped. -/
def neighborOffsets : List (Int × Int) :=
  [(-1, -1), (-1, 0), (-1, 1), (0, -1), (0, 1), (1, -1), (1, 0), (1, 1)]

/-- `Minesweeper.neighbors`: in-bounds cells at the eight offsets. -/
def Minesweeper.neighbors (g : Minesweeper) (pos : Pos) : Finset Pos :=
  neighborOffsets.foldl (fun acc d =>
    if 0 ≤ (pos.1 : Int) + d.1 ∧ (pos.1 : Int) + d.1 < (g.height : Int) ∧
       0 ≤ (pos.2 : Int) + d.2 ∧ (pos.2 : Int) + d.2 < (g.width : Int) then
      insert (((pos.1 : Int) + d.1).toNat, ((pos.2 : Int) + d.2).toNat) acc
    else acc) ∅

/-- `Minesweeper.nearby_mines`: how many neighbors are mines. -/
def Minesweeper.nearby_mines (g : Minesweeper) (pos : Pos) : Nat :=
  ((g.neighbors pos).filter (fun q => q ∈ g.mines)).card

/-- `Minesweeper.is_mine`. -/
def Minesweeper.is_mine (g : Minesweeper) (pos : Pos) : Prop := pos ∈ g.mines

/-- `Minesweeper.reveal`: result value and updated board state.  An already
revealed cell returns its nearby count without touching the state; otherwise
the cell is added to `revealed` and the result is −1 for a mine, else the
nearby count. -/
def Minesweeper.reveal (g : Minesweeper) (pos : Pos) : Int × Minesweeper :=
  if pos ∈ g.revealed then ((g.nearby_mines pos : Int), g)
  else if pos ∈ g.mines then
    (-1, { g with revealed := insert pos g.revealed })
  else
    ((({ g with revealed := insert pos g.revealed } : Minesweeper).nearby_mines pos : Int),
     { g with revealed := insert pos g.revealed })

/-- `Minesweeper.won`: `len(revealed) == height*width - len(mines)`. -/
def Minesweeper.won (g : Minesweeper) : Bool :=
  decide ((g.revealed.card : Int) = ((g.height * g.width : Nat) : Int) - (g.mines.card : Int))

/-- The in-bounds cells of a `height × width` board. -/
def gridCells (h w : Nat) : Finset Pos := Finset.range h ×ˢ Finset.range w

/-- One value of the modelled `random.randrange` pair at step `i`:
`randrange(h)` yields a number in `[0, h)`, modelled as `x % h`. -/
def pick (stream : Nat → Nat × Nat) (h w i : Nat) : Pos :=
  ((stream i).1 % h, (stream i).2 % w)

/-- The set of cells the stream proposes at steps `idx, …, idx+n-1`. -/
def pickSet (stream : Nat → Nat × Nat) (h w idx n : Nat) : Finset Pos :=
  ((List.range n).map (fun k => pick stream h w (idx + k))).toFinset

/-- The mine-placement loop of `Minesweeper.__init__`:
`while len(mines) < m: draw (r, c); if new, add it and set board[r][c]`.
Fuel-bounded; `none` means the loop had not finished within `fuel` draws. -/
def placeMinesFuel (h w m : Nat) (stream : Nat → Nat × Nat) :
    Nat → Nat → Finset Pos → (Pos → Bool) → Option (Finset Pos × (Pos → Bool))
  | 0, _, mi, b => if m ≤ mi.card then some (mi, b) else none
  | fuel + 1, idx, mi, b =>
    if m ≤ mi.card then some (mi, b)
    else if pick stream h w idx ∈ mi then
      placeMinesFuel h w m stream fuel (idx + 1) mi b
    else
      placeMinesFuel h w m stream fuel (idx + 1) (insert (pick stream h w idx) mi)
        (fun q => if q = pick stream h w idx then true else b q)

/-- `Minesweeper.__init__`: run the mine-placement loop from an all-false
board and empty mine set, then start with `revealed` and `flags` empty. -/
def Minesweeper.start (h w m : Nat) (stream : Nat → Nat × Nat) (fuel : Nat) :
    Option Minesweeper :=
  (placeMinesFuel h w m stream fuel 0 ∅ (fun _ => false)).map
    (fun r => ⟨h, w, m, r.2, r.1, ∅, ∅⟩)

/-- The knowledge base of class `MinesweeperAI`. -/
structure MinesweeperAI where
  height : Nat
  width : Nat
  moves_made : Finset Pos
  safes : Finset Pos
  mines : Finset Pos
  knowledge : List Sentence

instance : DecidableEq MinesweeperAI := fun a b =>
  decidable_of_iff (a.height = b.height ∧ a.width = b.width ∧
      a.moves_made = b.moves_made ∧ a.safes = b.safes ∧ a.mines = b.mines ∧
      a.knowledge = b.knowledge)
    (by cases a; cases b; simp)

instance : DecidableEq (Option MinesweeperAI) := fun a b =>
  match a, b with
  | none, none => isTrue rfl
  | none, some _ => isFalse (by simp)
  | some _, none => isFalse (by simp)
  | some x, some y => decidable_of_iff (x = y) (by simp)

/-- `MinesweeperAI.__init__`. -/
def MinesweeperAI.start (h w : Nat) : MinesweeperAI := ⟨h, w, ∅, ∅, ∅, []⟩

/-- `MinesweeperAI.mark_mine`: add to `mines`, call `Sentence.mark_mine` on
every sentence. -/
def MinesweeperAI.mark_mine (ai : MinesweeperAI) (pos : Pos) : MinesweeperAI :=
  { ai with mines := insert pos ai.mines,
            knowledge := ai.knowledge.map (fun s => s.mark_mine pos) }

/-- `MinesweeperAI.mark_safe`: add to `safes`, call `Sentence.mark_safe` on
every sentence. -/
def MinesweeperAI.mark_safe (ai : MinesweeperAI) (pos : Pos) : MinesweeperAI :=
  { ai with safes := insert pos ai.safes,
            knowledge := ai.knowledge.map (fun s => s.mark_safe pos) }

/-- `safes |= s.known_safes()` accumulated over the knowledge list. -/
def collectSafes (ks : List Sentence) : Finset Pos :=
  ks.foldl (fun acc s => acc ∪ s.known_safes) ∅

/-- `mines |= s.known_mines()` accumulated over the knowledge list. -/
def collectMines (ks : List Sentence) : Finset Pos :=
  ks.foldl (fun acc s => acc ∪ s.known_mines) ∅

/-- Aggregate effect of the `for s_pos in safes` loop restricted to the
cells actually marked: each is added to `safes` and erased from every
sentence.  See the modelling notes. -/
def MinesweeperAI.markSafeSet (ai : MinesweeperAI) (ps : Finset Pos) : MinesweeperAI :=
  { ai with safes := ai.safes ∪ ps,
            knowledge := ai.knowledge.map (fun s => ⟨s.cells \ ps, s.count⟩) }

/-- Aggregate effect of the `for m_pos in mines` loop restricted to the
cells actually marked: each is added to `mines`, erased from every sentence,
and the sentence count drops by one per erased cell. -/
def MinesweeperAI.markMineSet (ai : MinesweeperAI) (ps : Finset Pos) : MinesweeperAI :=
  { ai with mines := ai.mines ∪ ps,
            knowledge := ai.knowledge.map
              (fun s => ⟨s.cells \ ps, s.count - ((s.cells ∩ ps).card : Int)⟩) }

/-- Steps (a)–(c) of one pass of the fixpoint loop: collect `known_safes`
and `known_mines` over all sentences, then mark every collected cell that is
not already marked.  The Bool is the `changed` contribution: some cell was
newly marked. -/
def markPhase (ai : MinesweeperAI) : MinesweeperAI × Bool :=
  let toSafe := collectSafes ai.knowledge \ ai.safes
  let toMine := collectMines ai.knowledge \ ai.mines
  ((ai.markSafeSet toSafe).markMineSet toMine,
   decide (toSafe ≠ ∅) || decide (toMine ≠ ∅))

/-- `self.knowledge = [s for s in self.knowledge if not s.is_empty()]`. -/
def dropEmpty (ai : MinesweeperAI) : MinesweeperAI :=
  { ai with knowledge := ai.knowledge.filter (fun s => ! s.is_empty) }

/-- The `new_inferred` list of one pass: for every ordered pair of sentences
in distinct list slots with both cell sets nonempty and the first a subset
of the second, the difference sentence, kept when nonempty.  The two
identity-based `not in` dedup tests of the source never fire (see the
modelling notes) and are omitted. -/
def inferPairs (ks : List Sentence) : List Sentence :=
  ks.flatMap fun s1 => ks.flatMap fun s2 =>
    if s1 = s2 then []
    else if s1.cells ≠ ∅ ∧ s2.cells ≠ ∅ ∧ s1.cells ⊆ s2.cells then
      if s2.cells \ s1.cells = ∅ then []
      else [⟨s2.cells \ s1.cells, s2.count - s1.count⟩]
    else []

/-- One full pass of the `while changed` loop body of `add_knowledge`:
mark the newly known cells, drop empty sentences, stage the subset
inferences, and report whether anything changed. -/
def passStep (ai : MinesweeperAI) : MinesweeperAI × Bool :=
  let m := markPhase ai
  let ai2 := dropEmpty m.1
  let inf := inferPairs ai2.knowledge
  (if inf = [] then ai2 else { ai2 with knowledge := ai2.knowledge ++ inf },
   m.2 || decide (inf ≠ []))

/-- The `while changed` loop with explicit fuel: run passes until one
reports no change; `none` when the fuel runs out first. -/
def loopFuel : Nat → MinesweeperAI → Option MinesweeperAI
  | 0, _ => none
  | fuel + 1, ai =>
    if (passStep ai).2 = true then loopFuel fuel (passStep ai).1
    else some (passStep ai).1

/-- The part of `add_knowledge` before the loop: record the move, mark the
cell safe, and append the observation sentence over the unknown neighbors
with the count adjusted by the known mines among the neighbors. -/
def MinesweeperAI.addPre (ai : MinesweeperAI) (cell : Pos) (count : Int)
    (game : Minesweeper) : MinesweeperAI :=
  let ai2 := (({ ai with moves_made := insert cell ai.moves_made } : MinesweeperAI)).mark_safe cell
  let nbrs := game.neighbors cell
  let unknowns := nbrs.filter
    (fun n => n ∉ ai2.safes ∧ n ∉ ai2.mines ∧ n ∉ ai2.moves_made)
  let ns : Sentence := ⟨unknowns, count - ((nbrs.filter (fun n => n ∈ ai2.mines)).card : Int)⟩
  if ns.is_empty then ai2 else { ai2 with knowledge := ai2.knowledge ++ [ns] }

/-- `MinesweeperAI.add_knowledge`, fuel-bounded: the pre-loop update followed
by the deduction fixpoint. -/
def MinesweeperAI.add_knowledge (ai : MinesweeperAI) (cell : Pos) (count : Int)
    (game : Minesweeper) (fuel : Nat) : Option MinesweeperAI :=
  loopFuel fuel (ai.addPre cell count game)

/-- The per-sentence invariant `0 <= count <= |cells|` of the spec. -/
def sentenceInv (s : Sentence) : Prop :=
  0 ≤ s.count ∧ s.count ≤ (s.cells.card : Int)

/-- Boolean check of the invariant over the whole knowledge collection. -/
def invHoldsB (ai : MinesweeperAI) : Bool :=
  ai.knowledge.all (fun s => decide (0 ≤ s.count ∧ s.count ≤ (s.cells.card : Int)))

/-- The at-rest state invariant: no cell of any live sentence is already in
`safes` or `mines`. -/
def cellsClean (ai : MinesweeperAI) : Prop :=
  ∀ s ∈ ai.knowledge, ∀ p ∈ s.cells, p ∉ ai.safes ∧ p ∉ ai.mines

/-- The 3×3 board with mines at (0,1), (2,0), (2,2): cell (0,0) has one
nearby mine and cell (1,1) has three. -/
def game3 : Minesweeper :=
  ⟨3, 3, 3, fun p => decide (p ∈ ({(0, 1), (2, 0), (2, 2)} : Finset Pos)),
   {(0, 1), (2, 0), (2, 2)}, ∅, ∅⟩

/-- The knowledge base after observing cell (0,0) with count 1 on `game3`. -/
def aiMid : MinesweeperAI :=
  ⟨3, 3, {(0, 0)}, {(0, 0)}, ∅, [⟨{(0, 1), (1, 0), (1, 1)}, 1⟩]⟩

/-- Sentence over the still-unknown neighbors of (0,0) once (1,1) is also
known safe. -/
def vA : Sentence := ⟨{(0, 1), (1, 0)}, 1⟩

/-- Sentence of the observation at (1,1) with count 3. -/
def vB : Sentence := ⟨{(0, 1), (0, 2), (1, 0), (1, 2), (2, 0), (2, 1), (2, 2)}, 3⟩

/-- The subset inference of `vA ⊆ vB`: the five cells of `vB` outside `vA`
hold two mines. -/
def vC : Sentence := ⟨{(0, 2), (1, 2), (2, 0), (2, 1), (2, 2)}, 2⟩

/-- The state at the entry of the fixpoint loop of the second observation:
`add_knowledge((1,1), 3)` after its pre-loop part. -/
def stateS : MinesweeperAI :=
  ⟨3, 3, {(0, 0), (1, 1)}, {(0, 0), (1, 1)}, ∅, [vA, vB]⟩

/-- Invariant of the diverging fixpoint run: `vA` and `vB` are present and
every sentence is one of `vA`, `vB`, `vC`. -/
def badInv (ai : MinesweeperAI) : Prop :=
  vA ∈ ai.knowledge ∧ vB ∈ ai.knowledge ∧
    ∀ s ∈ ai.knowledge, s = vA ∨ s = vB ∨ s = vC

/-- The sentences of the spec test `A={a,b},count=1`. -/
def sA4 : Sentence := ⟨{(0, 0), (0, 1)}, 1⟩

/-- The sentences of the spec test `B={a,b,c},count=2`. -/
def sB4 : Sentence := ⟨{(0, 0), (0, 1), (0, 2)}, 2⟩

/-- Knowledge base holding exactly `sA4` and `sB4`. -/
def kb4 : MinesweeperAI := ⟨3, 3, ∅, ∅, ∅, [sA4, sB4]⟩

/-- The stable state the fixpoint reaches from `kb4`: (0,2) marked mined and
the two (value-duplicate) residual sentences. -/
def kb4res : MinesweeperAI :=
  ⟨3, 3, ∅, ∅, {(0, 2)}, [⟨{(0, 0), (0, 1)}, 1⟩, ⟨{(0, 0), (0, 1)}, 1⟩]⟩

/-- A 1×2 board whose single mine at (0,1) has been revealed. -/
def g8c : Minesweeper :=
  ⟨1, 2, 1, fun p => decide (p = ((0, 1) : Pos)), {(0, 1)}, {(0, 1)}, ∅⟩

/-- The same board before any reveal. -/
def g8start : Minesweeper :=
  ⟨1, 2, 1, fun p => decide (p = ((0, 1) : Pos)), {(0, 1)}, ∅, ∅⟩

/-- A 1×2 board with a mine at (0,1) and the safe cell (0,0) revealed. -/
def g8w : Minesweeper :=
  ⟨1, 2, 1, fun p => decide (p = ((0, 1) : Pos)), {(0, 1)}, {(0, 0)}, ∅⟩

/-- A 1×3 board with one mine at (0,2). -/
def gameB : Minesweeper :=
  ⟨1, 3, 1, fun p => decide (p = ((0, 2) : Pos)), {(0, 2)}, ∅, ∅⟩

/-- The knowledge base after observing (0,1) with count 1 on `gameB`. -/
def kb1 : MinesweeperAI :=
  ⟨1, 3, {(0, 1)}, {(0, 1)}, ∅, [⟨{(0, 0), (0, 2)}, 1⟩]⟩

/-- A mine-free 1×2 board. -/
def gameC : Minesweeper := ⟨1, 2, 0, fun _ => false, ∅, ∅, ∅⟩

/-- The knowledge base reached from a fresh 1×2 agent after observing (0,0)
with count 0 on `gameC`. -/
def ai5res : MinesweeperAI := ⟨1, 2, {(0, 0)}, {(0, 0), (0, 1)}, ∅, []⟩

/-- A stable knowledge base: one unresolved sentence, nothing to deduce. -/
def ai9 : MinesweeperAI :=
  ⟨8, 8, {(0, 0)}, {(0, 0)}, ∅, [⟨{(0, 1), (1, 0)}, 1⟩]⟩

/-- The stream for the constructor witness: proposes (0,0) then (1,1). -/
def s10 : Nat → Nat × Nat := fun i => (i, i)

instance (s : Sentence) : Decidable (sentenceInv s) := by
  unfold sentenceInv; infer_instance

instance (ai : MinesweeperAI) : Decidable (cellsClean ai) := by
  unfold cellsClean; infer_instance

instance (ai : MinesweeperAI) : Decidable (badInv ai) := by
  unfold badInv; infer_instance

/-! ## Lemmas about one pass of the fixpoint -/

theorem markSafeSet_empty (ai : MinesweeperAI) : ai.markSafeSet ∅ = ai := by
  unfold MinesweeperAI.markSafeSet
  rw [Finset.union_empty,
    show ai.knowledge.map (fun s => (⟨s.cells \ ∅, s.count⟩ : Sentence)) = ai.knowledge by
      rw [show (fun s : Sentence => (⟨s.cells \ ∅, s.count⟩ : Sentence)) = id by
            funext s; cases s; simp]
      exact List.map_id ai.knowledge]

theorem markMineSet_empty (ai : MinesweeperAI) : ai.markMineSet ∅ = ai := by
  unfold MinesweeperAI.markMineSet
  rw [Finset.union_empty,
    show ai.knowledge.map
        (fun s => (⟨s.cells \ ∅, s.count - ((s.cells ∩ ∅).card : Int)⟩ : Sentence)) =
        ai.knowledge by
      rw [show (fun s : Sentence =>
            (⟨s.cells \ ∅, s.count - ((s.cells ∩ ∅).card : Int)⟩ : Sentence)) = id by
            funext s; cases s; simp]
      exact List.map_id ai.knowledge]

theorem markPhase_stable {ai : MinesweeperAI}
    (hs : collectSafes ai.knowledge ⊆ ai.safes)
    (hm : collectMines ai.knowledge ⊆ ai.mines) :
    markPhase ai = (ai, false) := by
  have h1 : collectSafes ai.knowledge \ ai.safes = ∅ :=
    Finset.sdiff_eq_empty_iff_subset.mpr hs
  have h2 : collectMines ai.knowledge \ ai.mines = ∅ :=
    Finset.sdiff_eq_empty_iff_subset.mpr hm
  simp only [markPhase, h1, h2, markSafeSet_empty, markMineSet_empty]
  simp

theorem dropEmpty_eq {ai : MinesweeperAI}
    (h : ∀ s ∈ ai.knowledge, s.is_empty = false) : dropEmpty ai = ai := by
  unfold dropEmpty
  rw [List.filter_eq_self.mpr (fun s hs => by simp [h s hs])]

theorem passStep_stable {ai : MinesweeperAI}
    (hs : collectSafes ai.knowledge ⊆ ai.safes)
    (hm : collectMines ai.knowledge ⊆ ai.mines)
    (hclean : ∀ s ∈ ai.knowledge, s.is_empty = false)
    (hinf : inferPairs ai.knowledge = []) :
    passStep ai = (ai, false) := by
  simp only [passStep, markPhase_stable hs hm, dropEmpty_eq hclean, hinf]
  simp

/-- Claim C9: a knowledge base on which one pass of the deduction fixpoint
reports no change (and whose sentences are all nonempty, as on every state
the loop exits with) is a fixed point: re-running the loop with any amount
of fuel returns it unchanged — no new safe cell, no new mine, no new
sentence. -/
theorem claim9_idempotent (ai : MinesweeperAI) (n : Nat)
    (hstable : (passStep ai).2 = false)
    (hclean : ∀ s ∈ ai.knowledge, s.is_empty = false) :
    loopFuel (n + 1) ai = some ai := by
  have hsplit : (markPhase ai).2 = false ∧
      decide (inferPairs (dropEmpty (markPhase ai).1).knowledge ≠ []) = false := by
    simpa [passStep, Bool.or_eq_false_iff] using hstable
  have hsm : collectSafes ai.knowledge \ ai.safes = ∅ ∧
      collectMines ai.knowledge \ ai.mines = ∅ := by
    have h := hsplit.1
    simpa [markPhase, Bool.or_eq_false_iff, decide_eq_false_iff_not, not_ne_iff] using h
  have hs : collectSafes ai.knowledge ⊆ ai.safes :=
    Finset.sdiff_eq_empty_iff_subset.mp hsm.1
  have hm : collectMines ai.knowledge ⊆ ai.mines :=
    Finset.sdiff_eq_empty_iff_subset.mp hsm.2
  have hfst : (markPhase ai).1 = ai := by rw [markPhase_stable hs hm]
  have hinf : inferPairs ai.knowledge = [] := by
    have h := hsplit.2
    rw [hfst, dropEmpty_eq hclean] at h
    simpa [decide_eq_false_iff_not, not_ne_iff] using h
  simp [loopFuel, passStep_stable hs hm hclean hinf]

/-- Witness for C9 at a concrete stable knowledge base. -/
theorem claim9_witness : loopFuel 1 ai9 = some ai9 :=
  claim9_idempotent ai9 0 (by decide) (by decide)

/-! ## Lemmas about the staged subset inferences -/

theorem mem_inferPairs {ks : List Sentence} {t : Sentence} (h : t ∈ inferPairs ks) :
    ∃ s1, s1 ∈ ks ∧ ∃ s2, s2 ∈ ks ∧ s1 ≠ s2 ∧ s1.cells ⊆ s2.cells ∧
      t = ⟨s2.cells \ s1.cells, s2.count - s1.count⟩ := by
  rcases List.mem_flatMap.mp h with ⟨s1, hs1, h⟩
  rcases List.mem_flatMap.mp h with ⟨s2, hs2, h⟩
  by_cases he : s1 = s2
  · rw [if_pos he] at h; exact absurd h (List.not_mem_nil _)
  · rw [if_neg he] at h
    by_cases hc : s1.cells ≠ ∅ ∧ s2.cells ≠ ∅ ∧ s1.cells ⊆ s2.cells
    · rw [if_pos hc] at h
      by_cases hd : s2.cells \ s1.cells = ∅
      · rw [if_pos hd] at h; exact absurd h (List.not_mem_nil _)
      · rw [if_neg hd] at h
        exact ⟨s1, hs1, s2, hs2, he, hc.2.2, List.mem_singleton.mp h⟩
    · rw [if_neg hc] at h; exact absurd h (List.not_mem_nil _)

theorem inferPairs_mem {ks : List Sentence} {s1 s2 : Sentence}
    (h1 : s1 ∈ ks) (h2 : s2 ∈ ks) (hne : s1 ≠ s2) (hc1 : s1.cells ≠ ∅)
    (hc2 : s2.cells ≠ ∅) (hsub : s1.cells ⊆ s2.cells)
    (hd : s2.cells \ s1.cells ≠ ∅) :
    (⟨s2.cells \ s1.cells, s2.count - s1.count⟩ : Sentence) ∈ inferPairs ks := by
  apply List.mem_flatMap.mpr
  refine ⟨s1, h1, List.mem_flatMap.mpr ⟨s2, h2, ?_⟩⟩
  rw [if_neg hne, if_pos ⟨hc1, hc2, hsub⟩, if_neg hd]
  exact List.mem_singleton.mpr rfl

/-- Claim C4: the subset-inference rule is applied: for every ordered pair
of distinct nonempty sentences with one cell set contained in the other,
the difference sentence (when nonempty) is staged by the pass; and on the
spec instance A = {a,b} count 1, B = {a,b,c} count 2, the pass stages
{c} with count 1 and the fixpoint then marks c mined. -/
theorem claim4_subset_inference :
    (∀ (ks : List Sentence) (s1 s2 : Sentence), s1 ∈ ks → s2 ∈ ks → s1 ≠ s2 →
        s1.cells ≠ ∅ → s2.cells ≠ ∅ → s1.cells ⊆ s2.cells →
        s2.cells \ s1.cells ≠ ∅ →
        (⟨s2.cells \ s1.cells, s2.count - s1.count⟩ : Sentence) ∈ inferPairs ks) ∧
    (⟨{(0, 2)}, 1⟩ : Sentence) ∈ (passStep kb4).1.knowledge ∧
    loopFuel 3 kb4 = some kb4res ∧ (0, 2) ∈ kb4res.mines :=
  ⟨fun _ _ _ h1 h2 hne hc1 hc2 hsub hd => inferPairs_mem h1 h2 hne hc1 hc2 hsub hd,
   by decide, by decide, by decide⟩

/-- Witness for C4: the general subset-inference part applied to the
concrete pair of the spec instance. -/
theorem claim4_witness :
    (⟨sB4.cells \ sA4.cells, sB4.count - sA4.count⟩ : Sentence) ∈
      inferPairs [sA4, sB4] :=
  claim4_subset_inference.1 [sA4, sB4] sA4 sB4 (by decide) (by decide) (by decide)
    (by decide) (by decide) (by decide) (by decide)

/-- Claim C2 is false of the code: `Sentence` defines no `__eq__`, so the
`inferred not in self.knowledge` test compares by object identity and never
fires for the freshly allocated `inferred`.  From the reachable state
`stateS` (see `claim1_fixpoint_diverges`), one pass stages `vC`; the next
pass stages a second value-equal copy of `vC` (and of `vA`) even though
both are already present. -/
theorem claim2_dedup_fails :
    (passStep stateS).1.knowledge = [vA, vB, vC] ∧
    (passStep (passStep stateS).1).1.knowledge = [vA, vB, vC, vC, vA] := by
  decide

/-! ## The diverging fixpoint run (claim C1) -/

theorem foldl_union_empty (f : Sentence → Finset Pos) :
    ∀ (ks : List Sentence) (acc : Finset Pos), (∀ s ∈ ks, f s = ∅) →
      ks.foldl (fun a s => a ∪ f s) acc = acc
  | [], _, _ => rfl
  | s :: ks, acc, h => by
    rw [List.foldl_cons, h s (List.mem_cons_self s ks), Finset.union_empty]
    exact foldl_union_empty f ks acc (fun q hq => h q (List.mem_cons_of_mem s hq))

theorem collectSafes_empty {ks : List Sentence}
    (h : ∀ s ∈ ks, s.known_safes = ∅) : collectSafes ks = ∅ :=
  foldl_union_empty Sentence.known_safes ks ∅ h

theorem collectMines_empty {ks : List Sentence}
    (h : ∀ s ∈ ks, s.known_mines = ∅) : collectMines ks = ∅ :=
  foldl_union_empty Sentence.known_mines ks ∅ h

/-- From any state satisfying `badInv`, one pass reports a change and
preserves `badInv`: the three sentence values have no known safes or mines
and are nonempty, so the marking and sweeping steps do nothing, while the
pair `vA ⊆ vB` stages a fresh copy of `vC` every time. -/
theorem badInv_step {ai : MinesweeperAI} (h : badInv ai) :
    (passStep ai).2 = true ∧ badInv (passStep ai).1 := by
  obtain ⟨hA, hB, hks⟩ := h
  have hsafes : collectSafes ai.knowledge = ∅ :=
    collectSafes_empty (fun s hs => by rcases hks s hs with rfl | rfl | rfl <;> decide)
  have hmines : collectMines ai.knowledge = ∅ :=
    collectMines_empty (fun s hs => by rcases hks s hs with rfl | rfl | rfl <;> decide)
  have hmark : markPhase ai = (ai, false) :=
    markPhase_stable (by rw [hsafes]; exact Finset.empty_subset _)
      (by rw [hmines]; exact Finset.empty_subset _)
  have hclean : ∀ s ∈ ai.knowledge, s.is_empty = false :=
    fun s hs => by rcases hks s hs with rfl | rfl | rfl <;> decide
  have hdrop : dropEmpty ai = ai := dropEmpty_eq hclean
  have hvC : vC ∈ inferPairs ai.knowledge := by
    have hmem := @inferPairs_mem ai.knowledge vA vB hA hB
      (by decide) (by decide) (by decide) (by decide) (by decide)
    rwa [show (⟨vB.cells \ vA.cells, vB.count - vA.count⟩ : Sentence) = vC by decide]
      at hmem
  have hne : inferPairs ai.knowledge ≠ [] := List.ne_nil_of_mem hvC
  have hfst : (passStep ai).1 =
      { ai with knowledge := ai.knowledge ++ inferPairs ai.knowledge } := by
    simp [passStep, hmark, hdrop, hne]
  refine ⟨by simp [passStep, hmark, hdrop, hne], ?_⟩
  rw [hfst]
  unfold badInv
  refine ⟨List.mem_append_left _ hA, List.mem_append_left _ hB, ?_⟩
  intro s hsm
  rcases List.mem_append.mp hsm with hl | hr
  · exact hks s hl
  · rcases mem_inferPairs hr with ⟨s1, hs1, s2, hs2, hne2, hsub, ht⟩
    rcases hks s1 hs1 with rfl | rfl | rfl <;> rcases hks s2 hs2 with rfl | rfl | rfl <;>
      first
        | exact absurd rfl hne2
        | exact absurd hsub (by decide)
        | (rw [ht]; decide)

theorem badInv_loop : ∀ (n : Nat) (ai : MinesweeperAI), badInv ai → loopFuel n ai = none
  | 0, _, _ => rfl
  | n + 1, ai, h => by
    obtain ⟨h2, hinv⟩ := badInv_step h
    simp only [loopFuel]
    rw [h2, if_pos rfl]
    exact badInv_loop n _ hinv

/-- Claim C1 is false of the code (the spec states the intended behavior):
because the dedup tests compare sentences by object identity (no `__eq__`),
the loop keeps re-staging value-equal copies of already-present sentences
and `changed` never goes false.  Concretely, on the 3×3 board `game3`
(mines at (0,1), (2,0), (2,2)), honestly observing (0,0) with its true
count 1 and then (1,1) with its true count 3 enters a fixpoint loop that no
amount of fuel finishes: `add_knowledge` diverges. -/
theorem claim1_fixpoint_diverges :
    (MinesweeperAI.start 3 3).add_knowledge (0, 0) 1 game3 1 = some aiMid ∧
    aiMid.addPre (1, 1) 3 game3 = stateS ∧
    game3.nearby_mines (0, 0) = 1 ∧ game3.nearby_mines (1, 1) = 3 ∧
    game3.board (0, 0) = false ∧ game3.board (1, 1) = false ∧
    ∀ fuel, aiMid.add_knowledge (1, 1) 3 game3 fuel = none := by
  refine ⟨by decide, by decide, by decide, by decide, by decide, by decide,
    fun fuel => ?_⟩
  show loopFuel fuel (aiMid.addPre (1, 1) 3 game3) = none
  rw [show aiMid.addPre (1, 1) 3 game3 = stateS by decide]
  exact badInv_loop fuel stateS (by decide)

/-! ## No cell of a live sentence is already resolved (claim C5) -/

theorem mark_safe_cells {s : Sentence} {pos p : Pos}
    (hp : p ∈ (s.mark_safe pos).cells) : p ∈ s.cells ∧ p ≠ pos := by
  unfold Sentence.mark_safe at hp
  by_cases h : pos ∈ s.cells
  · rw [if_pos h] at hp
    exact ⟨Finset.mem_of_mem_erase hp, (Finset.mem_erase.mp hp).1⟩
  · rw [if_neg h] at hp
    exact ⟨hp, fun he => h (he ▸ hp)⟩

theorem mark_mine_cells {s : Sentence} {pos p : Pos}
    (hp : p ∈ (s.mark_mine pos).cells) : p ∈ s.cells ∧ p ≠ pos := by
  unfold Sentence.mark_mine at hp
  by_cases h : pos ∈ s.cells
  · rw [if_pos h] at hp
    exact ⟨Finset.mem_of_mem_erase hp, (Finset.mem_erase.mp hp).1⟩
  · rw [if_neg h] at hp
    exact ⟨hp, fun he => h (he ▸ hp)⟩

theorem clean_mark_safe {ai : MinesweeperAI} (h : cellsClean ai) (pos : Pos) :
    cellsClean (ai.mark_safe pos) := by
  intro s hs p hp
  rcases List.mem_map.mp hs with ⟨t, ht, rfl⟩
  obtain ⟨hpt, hne⟩ := mark_safe_cells hp
  obtain ⟨h1, h2⟩ := h t ht p hpt
  refine ⟨fun hmem => ?_, h2⟩
  rcases Finset.mem_insert.mp hmem with he | hm
  · exact hne he
  · exact h1 hm

theorem clean_mark_mine {ai : MinesweeperAI} (h : cellsClean ai) (pos : Pos) :
    cellsClean (ai.mark_mine pos) := by
  intro s hs p hp
  rcases List.mem_map.mp hs with ⟨t, ht, rfl⟩
  obtain ⟨hpt, hne⟩ := mark_mine_cells hp
  obtain ⟨h1, h2⟩ := h t ht p hpt
  refine ⟨h1, fun hmem => ?_⟩
  rcases Finset.mem_insert.mp hmem with he | hm
  · exact hne he
  · exact h2 hm

theorem clean_markSafeSet {ai : MinesweeperAI} (h : cellsClean ai) (ps : Finset Pos) :
    cellsClean (ai.markSafeSet ps) := by
  intro s hs p hp
  rcases List.mem_map.mp hs with ⟨t, ht, rfl⟩
  rcases Finset.mem_sdiff.mp hp with ⟨hpt, hnps⟩
  obtain ⟨h1, h2⟩ := h t ht p hpt
  refine ⟨fun hmem => ?_, h2⟩
  rcases Finset.mem_union.mp hmem with hm | hm
  · exact h1 hm
  · exact hnps hm

theorem clean_markMineSet {ai : MinesweeperAI} (h : cellsClean ai) (ps : Finset Pos) :
    cellsClean (ai.markMineSet ps) := by
  intro s hs p hp
  rcases List.mem_map.mp hs with ⟨t, ht, rfl⟩
  rcases Finset.mem_sdiff.mp hp with ⟨hpt, hnps⟩
  obtain ⟨h1, h2⟩ := h t ht p hpt
  refine ⟨h1, fun hmem => ?_⟩
  rcases Finset.mem_union.mp hmem with hm | hm
  · exact h2 hm
  · exact hnps hm

theorem clean_dropEmpty {ai : MinesweeperAI} (h : cellsClean ai) :
    cellsClean (dropEmpty ai) := by
  intro s hs p hp
  exact h s (List.mem_filter.mp hs).1 p hp

theorem clean_append_infer {ai : MinesweeperAI} (h : cellsClean ai) :
    cellsClean { ai with knowledge := ai.knowledge ++ inferPairs ai.knowledge } := by
  intro s hs p hp
  rcases List.mem_append.mp hs with hl | hr
  · exact h s hl p hp
  · rcases mem_inferPairs hr with ⟨s1, _, s2, hs2, _, _, rfl⟩
    exact h s2 hs2 p (Finset.mem_sdiff.mp hp).1

theorem clean_passStep {ai : MinesweeperAI} (h : cellsClean ai) :
    cellsClean (passStep ai).1 := by
  have h2 : cellsClean (dropEmpty (markPhase ai).1) :=
    clean_dropEmpty (clean_markMineSet (clean_markSafeSet h _) _)
  by_cases hinf : inferPairs (dropEmpty (markPhase ai).1).knowledge = []
  · simpa [passStep, hinf] using h2
  · simpa [passStep, hinf] using clean_append_infer h2

theorem clean_loopFuel : ∀ (n : Nat) (ai res : MinesweeperAI), cellsClean ai →
    loopFuel n ai = some res → cellsClean res
  | 0, _, _, _, h => by simp [loopFuel] at h
  | n + 1, ai, res, hc, h => by
    simp only [loopFuel] at h
    by_cases h2 : (passStep ai).2 = true
    · rw [if_pos h2] at h
      exact clean_loopFuel n _ res (clean_passStep hc) h
    · rw [if_neg h2] at h
      injection h with h
      exact h ▸ clean_passStep hc

theorem clean_addPre {ai : MinesweeperAI} (h : cellsClean ai) (cell : Pos)
    (count : Int) (game : Minesweeper) :
    cellsClean (ai.addPre cell count game) := by
  have h2 : cellsClean
      (({ ai with moves_made := insert cell ai.moves_made } : MinesweeperAI).mark_safe cell) :=
    clean_mark_safe (fun s hs p hp => h s hs p hp) cell
  simp only [MinesweeperAI.addPre]
  split
  · exact h2
  · intro s hs p hp
    rcases List.mem_append.mp hs with hl | hr
    · exact h2 s hl p hp
    · rw [List.mem_singleton] at hr
      subst hr
      have hpred := (Finset.mem_filter.mp hp).2
      exact ⟨hpred.1, hpred.2.1⟩

/-- Claim C5 amended: after the public operations, no cell occurring in any
live sentence is in `safes` or `mines` (given the invariant held before);
the other half of the claim, `safes ∩ mines = ∅`, is not enforced by the
code and fails under `mark_safe` then `mark_mine` on the same cell
(see the counterexample). -/
theorem claim5_no_dangling (ai : MinesweeperAI) (pos cell : Pos) (count : Int)
    (game : Minesweeper) (fuel : Nat) (res : MinesweeperAI)
    (hclean : cellsClean ai)
    (hadd : ai.add_knowledge cell count game fuel = some res) :
    cellsClean (ai.mark_safe pos) ∧ cellsClean (ai.mark_mine pos) ∧ cellsClean res :=
  ⟨clean_mark_safe hclean pos, clean_mark_mine hclean pos,
   clean_loopFuel fuel _ res (clean_addPre hclean cell count game) hadd⟩

/-- Witness for C5 on a fresh 1×2 agent observing (0,0) with count 0. -/
theorem claim5_witness :
    cellsClean ((MinesweeperAI.start 1 2).mark_safe (0, 1)) ∧
    cellsClean ((MinesweeperAI.start 1 2).mark_mine (0, 1)) ∧
    cellsClean ai5res :=
  claim5_no_dangling (MinesweeperAI.start 1 2) (0, 1) (0, 0) 0 gameC 2 ai5res
    (by decide) (by decide)

/-- Counterexample for C5 as stated: the public operations `mark_safe` and
`mark_mine` never check disjointness, so calling them on the same cell
leaves it in both `safes` and `mines`. -/
theorem claim5_cex :
    (0, 0) ∈ (((MinesweeperAI.start 1 2).mark_safe (0, 0)).mark_mine (0, 0)).safes ∧
    (0, 0) ∈ (((MinesweeperAI.start 1 2).mark_safe (0, 0)).mark_mine (0, 0)).mines := by
  decide

/-! ## The constraint invariant (claims C3 and C6) -/

/-- Claim C3 amended: the mutations perform no validation, so the invariant
`0 ≤ count ≤ |cells|` is preserved only under the consistency side
conditions (`mark_safe` needs `count < |cells|`, `mark_mine` needs
`count ≥ 1`, whenever the cell is present); without them reachable public
operation sequences break it (see the counterexample). -/
theorem claim3_inv_conditional (s : Sentence) (pos : Pos) (hinv : sentenceInv s)
    (hsafe : pos ∈ s.cells → s.count < (s.cells.card : Int))
    (hmine : pos ∈ s.cells → 1 ≤ s.count) :
    sentenceInv (s.mark_safe pos) ∧ sentenceInv (s.mark_mine pos) := by
  obtain ⟨h0, h1⟩ := hinv
  unfold sentenceInv Sentence.mark_safe Sentence.mark_mine
  by_cases h : pos ∈ s.cells
  · rw [if_pos h, if_pos h]
    have hcard : (s.cells.erase pos).card = s.cells.card - 1 :=
      Finset.card_erase_of_mem h
    have hpos : 1 ≤ s.cells.card := Finset.card_pos.mpr ⟨pos, h⟩
    have hs := hsafe h
    have hm := hmine h
    simp only [hcard]
    refine ⟨⟨h0, ?_⟩, ?_, ?_⟩ <;> omega
  · rw [if_neg h, if_neg h]
    exact ⟨⟨h0, h1⟩, h0, h1⟩

/-- Witness for C3 on a two-cell count-1 sentence. -/
theorem claim3_witness :
    sentenceInv ((⟨{(0, 0), (0, 1)}, 1⟩ : Sentence).mark_safe (0, 0)) ∧
    sentenceInv ((⟨{(0, 0), (0, 1)}, 1⟩ : Sentence).mark_mine (0, 0)) :=
  claim3_inv_conditional ⟨{(0, 0), (0, 1)}, 1⟩ (0, 0) (by decide) (by decide)
    (by decide)

/-- Counterexample for C3 as stated: from a fresh 1×3 agent, the honest
observation of (0,1) with count 1 on `gameB` yields `kb1`; the public calls
`mark_safe (0,0)` then `mark_safe (0,2)` leave the sentence `⟨∅, 1⟩` in the
collection, violating `count ≤ |cells|`. -/
theorem claim3_cex :
    (MinesweeperAI.start 1 3).add_knowledge (0, 1) 1 gameB 1 = some kb1 ∧
    ((kb1.mark_safe (0, 0)).mark_safe (0, 2)).knowledge = [⟨∅, 1⟩] ∧
    invHoldsB ((kb1.mark_safe (0, 0)).mark_safe (0, 2)) = false := by
  decide

/-- Claim C6 amended: no assertion is performed after a mutation:
`mark_mine` on a present cell always returns the erased-and-decremented
sentence, and on a count-0 sentence it silently yields `count = -1` instead
of failing. -/
theorem claim6_no_assertion (s : Sentence) (pos : Pos) (h : pos ∈ s.cells) :
    s.mark_mine pos = ⟨s.cells.erase pos, s.count - 1⟩ ∧
    ((⟨{(0, 0)}, 0⟩ : Sentence).mark_mine (0, 0)).count = -1 :=
  ⟨by unfold Sentence.mark_mine; rw [if_pos h], by decide⟩

/-- Witness for C6. -/
theorem claim6_witness :
    (⟨{(0, 0)}, 1⟩ : Sentence).mark_mine (0, 0) =
      ⟨({(0, 0)} : Finset Pos).erase (0, 0), 1 - 1⟩ ∧
    ((⟨{(0, 0)}, 0⟩ : Sentence).mark_mine (0, 0)).count = -1 :=
  claim6_no_assertion ⟨{(0, 0)}, 1⟩ (0, 0) (by decide)

/-- Counterexample for C6 as stated: the mutation that makes `count`
negative neither asserts nor raises — it returns the corrupted sentence. -/
theorem claim6_cex :
    (⟨{(0, 0)}, 0⟩ : Sentence).mark_mine (0, 0) = ⟨∅, -1⟩ := by
  decide

/-! ## Board queries (claims C7 and C8) -/

/-- Claim C7 amended: on a cell not yet revealed, `reveal` returns −1
exactly when the cell is a mine and otherwise the exact nearby-mine count;
on an already revealed cell it returns the nearby-mine count regardless, so
a revealed mine yields its neighbor count rather than −1 (see the
counterexample). -/
theorem claim7_reveal (g : Minesweeper) (pos : Pos) :
    (pos ∈ g.revealed ∧ (g.reveal pos).1 = (g.nearby_mines pos : Int)) ∨
    (pos ∉ g.revealed ∧ (((g.reveal pos).1 = -1) ↔ pos ∈ g.mines) ∧
      (pos ∈ g.mines ∨ (g.reveal pos).1 = (g.nearby_mines pos : Int))) := by
  by_cases hrev : pos ∈ g.revealed
  · left
    exact ⟨hrev, by simp [Minesweeper.reveal, hrev]⟩
  · right
    by_cases hmine : pos ∈ g.mines
    · refine ⟨hrev, ?_, Or.inl hmine⟩
      simp [Minesweeper.reveal, hrev, hmine]
    · have heq : (g.reveal pos).1 = (g.nearby_mines pos : Int) := by
        simp only [Minesweeper.reveal, if_neg hrev, if_neg hmine]
        rfl
      refine ⟨hrev, ?_, Or.inr heq⟩
      rw [heq]
      constructor
      · intro habs
        exfalso
        omega
      · intro hm
        exact absurd hm hmine

/-- Counterexample for C7 as stated: the first reveal of the mine (0,1) on
the fresh 1×2 board returns −1 and records it as revealed; revealing the
same mine again returns its nearby count 0, not −1. -/
theorem claim7_cex :
    (g8start.reveal (0, 1)).1 = -1 ∧
    (g8start.reveal (0, 1)).2.revealed = {(0, 1)} ∧
    (0, 1) ∈ g8c.mines ∧ (g8c.reveal (0, 1)).1 = 0 := by
  decide

/-- Claim C8 amended: `won` only compares cardinalities,
`len(revealed) == height*width - len(mines)`.  When every revealed cell is
an in-bounds non-mine cell (and the mines are in bounds), that count
equality is equivalent to all non-mine cells being revealed; without that
restriction the equivalence fails, since revealing a mine also grows
`revealed` (see the counterexample). -/
theorem claim8_won (g : Minesweeper)
    (hm : g.mines ⊆ gridCells g.height g.width)
    (hr : g.revealed ⊆ gridCells g.height g.width \ g.mines) :
    g.won = true ↔ gridCells g.height g.width \ g.mines ⊆ g.revealed := by
  have hgc : (gridCells g.height g.width).card = g.height * g.width := by
    simp [gridCells, Finset.card_product]
  have hcard : (gridCells g.height g.width \ g.mines).card
      = g.height * g.width - g.mines.card := by
    rw [Finset.card_sdiff hm, hgc]
  have hmle : g.mines.card ≤ g.height * g.width := by
    have h := Finset.card_le_card hm
    rwa [hgc] at h
  unfold Minesweeper.won
  constructor
  · intro hwon
    have hEq := of_decide_eq_true hwon
    have hNat : g.revealed.card = (gridCells g.height g.width \ g.mines).card := by
      rw [hcard]
      omega
    have heq : g.revealed = gridCells g.height g.width \ g.mines :=
      Finset.eq_of_subset_of_card_le hr (le_of_eq hNat.symm)
    rw [heq]
  · intro hsub
    apply decide_eq_true
    have heq : g.revealed = gridCells g.height g.width \ g.mines :=
      Finset.Subset.antisymm hr hsub
    rw [heq, hcard]
    omega

/-- Witness for C8 on the 1×2 board with its safe cell revealed. -/
theorem claim8_witness :
    g8w.won = true ↔ gridCells g8w.height g8w.width \ g8w.mines ⊆ g8w.revealed :=
  claim8_won g8w (by decide) (by decide)

/-- Counterexample for C8 as stated: revealing the mine on the fresh 1×2
board reaches `g8c`, where `won` is true although the non-mine cell (0,0)
was never revealed. -/
theorem claim8_cex :
    (g8start.reveal (0, 1)).2.revealed = g8c.revealed ∧
    g8c.won = true ∧
    (0, 0) ∉ g8c.revealed ∧ (0, 0) ∉ g8c.mines := by
  decide

/-! ## The constructor and mine placement (claim C10) -/

theorem pickSet_succ (stream : Nat → Nat × Nat) (h w idx n : Nat) :
    pickSet stream h w idx (n + 1) =
      insert (pick stream h w idx) (pickSet stream h w (idx + 1) n) := by
  ext p
  simp only [pickSet, List.mem_toFinset, List.mem_map, List.mem_range,
    Finset.mem_insert]
  constructor
  · rintro ⟨k, hk, rfl⟩
    match k with
    | 0 => exact Or.inl rfl
    | k0 + 1 =>
      refine Or.inr ⟨k0, by omega, ?_⟩
      congr 1
      omega
  · rintro (rfl | ⟨k, hk, rfl⟩)
    · exact ⟨0, by omega, rfl⟩
    · exact ⟨k + 1, by omega, by congr 1; omega⟩

/-- Whenever the stream proposes enough distinct cells within the fuel, the
placement loop finishes. -/
theorem placeMines_total (h w m : Nat) (stream : Nat → Nat × Nat) :
    ∀ (n idx : Nat) (mi : Finset Pos) (b : Pos → Bool),
      m ≤ (mi ∪ pickSet stream h w idx n).card →
      ∃ r, placeMinesFuel h w m stream n idx mi b = some r
  | 0, idx, mi, b, hm => by
    rw [show pickSet stream h w idx 0 = ∅ from rfl, Finset.union_empty] at hm
    exact ⟨(mi, b), by simp [placeMinesFuel, hm]⟩
  | n + 1, idx, mi, b, hm => by
    by_cases hg : m ≤ mi.card
    · exact ⟨(mi, b), by simp [placeMinesFuel, hg]⟩
    · rw [pickSet_succ] at hm
      by_cases hp : pick stream h w idx ∈ mi
      · have hm2 : m ≤ (mi ∪ pickSet stream h w (idx + 1) n).card := by
          have hset : mi ∪ insert (pick stream h w idx) (pickSet stream h w (idx + 1) n)
              = mi ∪ pickSet stream h w (idx + 1) n := by
            rw [Finset.union_insert,
              Finset.insert_eq_self.mpr (Finset.mem_union_left _ hp)]
          rwa [hset] at hm
        obtain ⟨r, hr⟩ := placeMines_total h w m stream n (idx + 1) mi b hm2
        refine ⟨r, ?_⟩
        simp only [placeMinesFuel]
        rw [if_neg hg, if_pos hp]
        exact hr
      · have hm2 : m ≤ ((insert (pick stream h w idx) mi) ∪
            pickSet stream h w (idx + 1) n).card := by
          have hset : (insert (pick stream h w idx) mi) ∪ pickSet stream h w (idx + 1) n
              = mi ∪ insert (pick stream h w idx) (pickSet stream h w (idx + 1) n) := by
            rw [Finset.insert_union, Finset.union_insert]
          rwa [hset]
        obtain ⟨r, hr⟩ :=
          placeMines_total h w m stream n (idx + 1) (insert (pick stream h w idx) mi)
            (fun q => if q = pick stream h w idx then true else b q) hm2
        refine ⟨r, ?_⟩
        simp only [placeMinesFuel]
        rw [if_neg hg, if_neg hp]
        exact hr

/-- Whenever the placement loop finishes it establishes the constructor
postconditions: exactly `m` distinct in-bounds mines, and the board array
true exactly on the mine set. -/
theorem placeMines_post (h w m : Nat) (stream : Nat → Nat × Nat)
    (hh : 1 ≤ h) (hw : 1 ≤ w) :
    ∀ (n idx : Nat) (mi : Finset Pos) (b : Pos → Bool)
      (r : Finset Pos × (Pos → Bool)),
      (∀ p ∈ mi, p.1 < h ∧ p.2 < w) → (∀ p, b p = true ↔ p ∈ mi) →
      mi.card ≤ m →
      placeMinesFuel h w m stream n idx mi b = some r →
      r.1.card = m ∧ (∀ p ∈ r.1, p.1 < h ∧ p.2 < w) ∧
        (∀ p, r.2 p = true ↔ p ∈ r.1)
  | 0, idx, mi, b, r, hin, hb, hcard, heq => by
    simp only [placeMinesFuel] at heq
    by_cases hg : m ≤ mi.card
    · rw [if_pos hg] at heq
      injection heq with heq
      subst heq
      exact ⟨le_antisymm hcard hg, hin, hb⟩
    · rw [if_neg hg] at heq
      exact absurd heq (by simp)
  | n + 1, idx, mi, b, r, hin, hb, hcard, heq => by
    simp only [placeMinesFuel] at heq
    by_cases hg : m ≤ mi.card
    · rw [if_pos hg] at heq
      injection heq with heq
      subst heq
      exact ⟨le_antisymm hcard hg, hin, hb⟩
    · rw [if_neg hg] at heq
      by_cases hp : pick stream h w idx ∈ mi
      · rw [if_pos hp] at heq
        exact placeMines_post h w m stream hh hw n (idx + 1) mi b r hin hb hcard heq
      · rw [if_neg hp] at heq
        have hpin : (pick stream h w idx).1 < h ∧ (pick stream h w idx).2 < w :=
          ⟨Nat.mod_lt _ hh, Nat.mod_lt _ hw⟩
        have hin2 : ∀ p ∈ insert (pick stream h w idx) mi, p.1 < h ∧ p.2 < w := by
          intro p hpm
          rcases Finset.mem_insert.mp hpm with rfl | hpm
          · exact hpin
          · exact hin p hpm
        have hb2 : ∀ p, (if p = pick stream h w idx then true else b p) = true ↔
            p ∈ insert (pick stream h w idx) mi := by
          intro p
          by_cases hpe : p = pick stream h w idx
          · simp [hpe]
          · simp [hpe, hb p]
        have hcard2 : (insert (pick stream h w idx) mi).card ≤ m := by
          rw [Finset.card_insert_of_not_mem hp]
          omega
        exact placeMines_post h w m stream hh hw n (idx + 1) _ _ r hin2 hb2 hcard2 heq

/-- Claim C10: with the randomness modelled as an oracle stream that (as a
real generator does with probability 1) proposes at least `m` distinct cells
within its first `k` draws, the constructor halts and establishes: exactly
`m` distinct in-bounds mines, `board[r][c]` true exactly on the mine set,
and `revealed` and `flags` empty; and for a mine quota above `height*width`
the placement loop never finishes, with any fuel and any stream values. -/
theorem claim10_constructor (h w m : Nat) (stream : Nat → Nat × Nat)
    (hh : 1 ≤ h) (hw : 1 ≤ w) (k : Nat)
    (hk : m ≤ (pickSet stream h w 0 k).card) :
    (∃ g, Minesweeper.start h w m stream k = some g ∧
      g.mines.card = m ∧ (∀ p ∈ g.mines, p.1 < h ∧ p.2 < w) ∧
      (∀ p, g.board p = true ↔ p ∈ g.mines) ∧
      g.revealed = ∅ ∧ g.flags = ∅) ∧
    (∀ m2 fuel, h * w < m2 → Minesweeper.start h w m2 stream fuel = none) := by
  constructor
  · have hk2 : m ≤ ((∅ : Finset Pos) ∪ pickSet stream h w 0 k).card := by
      rwa [Finset.empty_union]
    obtain ⟨r, hr⟩ := placeMines_total h w m stream k 0 ∅ (fun _ => false) hk2
    obtain ⟨hc, hin, hb⟩ := placeMines_post h w m stream hh hw k 0 ∅ (fun _ => false) r
      (by simp) (by simp) (by simp) hr
    exact ⟨⟨h, w, m, r.2, r.1, ∅, ∅⟩, by simp [Minesweeper.start, hr],
      hc, hin, hb, rfl, rfl⟩
  · intro m2 fuel hlt
    unfold Minesweeper.start
    cases hpm : placeMinesFuel h w m2 stream fuel 0 ∅ (fun _ => false) with
    | none => rfl
    | some r =>
      exfalso
      obtain ⟨hc, hin, _⟩ := placeMines_post h w m2 stream hh hw fuel 0 ∅
        (fun _ => false) r (by simp) (by simp) (by simp) hpm
      have hsub : r.1 ⊆ gridCells h w := by
        intro p hp
        have h2 := hin p hp
        simp only [gridCells, Finset.mem_product, Finset.mem_range]
        exact h2
      have hle : r.1.card ≤ h * w := by
        have h2 := Finset.card_le_card hsub
        simpa [gridCells, Finset.card_product] using h2
      omega

/-- Witness for C10: a 2×2 board, two mines, a stream proposing (0,0) then
(1,1). -/
theorem claim10_witness :
    (∃ g, Minesweeper.start 2 2 2 s10 2 = some g ∧
      g.mines.card = 2 ∧ (∀ p ∈ g.mines, p.1 < 2 ∧ p.2 < 2) ∧
      (∀ p, g.board p = true ↔ p ∈ g.mines) ∧
      g.revealed = ∅ ∧ g.flags = ∅) ∧
    (∀ m2 fuel, 2 * 2 < m2 → Minesweeper.start 2 2 m2 s10 fuel = none) :=
  claim10_constructor 2 2 2 s10 (by decide) (by decide) 2 (by decide)
